import Mathlib

/-!
Shallow embedding of the binbreak round/session state machine
(`src/binary_numbers.rs`) and the procedural animation timer
(`src/utils.rs`).

Modelling conventions:
* Rust `u32`/`usize` become `Nat` (the operations the claims touch never
  overflow and never rely on wraparound).
* Rust `f64` time arithmetic becomes `ℚ`: the operations involved
  (subtraction, `max`, comparison with constants that are multiples of 0.5)
  are exact on the values the program produces, so the rational model agrees
  with the floating-point program on these fields.
* Randomness is made explicit: `BinaryNumbersPuzzle.new` takes the stream of
  raw draws the RNG produced and the permutation performed by `shuffle` as
  parameters.
* `Duration` values of the animation widget are modelled at millisecond
  granularity (`Nat`), matching the `as_millis` integer arithmetic the code
  performs.
* Render-only data (`stats_snapshot`, colors, layout) is omitted: it feeds
  the terminal buffer and never the state machine.
-/

namespace Binbreak

/-- `enum Bits` from `binary_numbers.rs`: the difficulty catalog. -/
inductive Bits
  | Four
  | FourTwosComplement
  | FourShift4
  | FourShift8
  | FourShift12
  | Eight
  | Twelve
  | Sixteen
  deriving DecidableEq, Repr

/-- `Bits::to_int`: the bit width of the mode. -/
def Bits.to_int : Bits → Nat
  | .Four | .FourShift4 | .FourShift8 | .FourShift12 | .FourTwosComplement => 4
  | .Eight => 8
  | .Twelve => 12
  | .Sixteen => 16

/-- `Bits::scale_factor`. -/
def Bits.scale_factor : Bits → Nat
  | .Four => 1
  | .FourTwosComplement => 1
  | .FourShift4 => 16
  | .FourShift8 => 256
  | .FourShift12 => 4096
  | .Eight => 1
  | .Twelve => 1
  | .Sixteen => 1

/-- `Bits::high_score_key`. -/
def Bits.high_score_key : Bits → Nat
  | .Four => 4
  | .FourTwosComplement => 42
  | .FourShift4 => 44
  | .FourShift8 => 48
  | .FourShift12 => 412
  | .Eight => 8
  | .Twelve => 12
  | .Sixteen => 16

/-- `Bits::suggestion_count`. -/
def Bits.suggestion_count : Bits → Nat
  | .Four | .FourShift4 | .FourShift8 | .FourShift12 | .FourTwosComplement => 3
  | .Eight => 4
  | .Twelve => 5
  | .Sixteen => 6

/-- `Bits::is_twos_complement`. -/
def Bits.is_twos_complement : Bits → Bool
  | .FourTwosComplement => true
  | _ => false

/-- `Bits::raw_to_signed`: display conversion of a raw bit pattern. -/
def Bits.raw_to_signed (b : Bits) (raw : Nat) : Int :=
  match b with
  | .FourTwosComplement => if raw ≥ 8 then (raw : Int) - 16 else (raw : Int)
  | _ => (raw : Int)

/-- The per-mode base time chosen inside `BinaryNumbersPuzzle::new`. -/
def Bits.base_time : Bits → ℚ
  | .Four | .FourShift4 | .FourShift8 | .FourShift12 | .FourTwosComplement => 8
  | .Eight => 12
  | .Twelve => 16
  | .Sixteen => 20

/-- `enum GuessResult`. -/
inductive GuessResult
  | Correct
  | Incorrect
  | Timeout
  deriving DecidableEq, Repr

/-- The per-draw transformation of the generation loop in
`BinaryNumbersPuzzle::new`: two's-complement modes store the raw bit pattern,
unsigned modes store `raw * scale_factor`. -/
def Bits.toNum (b : Bits) (raw : Nat) : Nat :=
  if b.is_twos_complement then raw else raw * b.scale_factor

/-- The rejection-sampling loop of `BinaryNumbersPuzzle::new`
(`while suggestions.len() < count { draw; if !contains { push } }`),
made deterministic over the explicit list of RNG draws. Draws arriving after
the list is full are ignored (the Rust loop stops drawing at that point). -/
def genLoop (count : Nat) (toNum : Nat → Nat) : List Nat → List Nat → List Nat
  | [], acc => acc
  | d :: ds, acc =>
    if count ≤ acc.length then acc
    else genLoop count toNum ds (if toNum d ∈ acc then acc else acc ++ [toNum d])

/-- `struct BinaryNumbersPuzzle` (render-only `stats_snapshot` omitted). -/
structure BinaryNumbersPuzzle where
  bits : Bits
  current_number : Nat
  raw_current_number : Nat
  suggestions : List Nat
  selected_suggestion : Option Nat
  time_total : ℚ
  time_left : ℚ
  guess_result : Option GuessResult
  last_points_awarded : Nat
  skip_first_dt : Bool
  deriving DecidableEq, Repr

/-- `BinaryNumbersPuzzle::new`, with the RNG draw stream and the shuffle
permutation as explicit parameters. `suggestions[0]` indexing is modelled by
`headD 0`; the claims carry the hypothesis that generation filled the list,
under which the list is nonempty. -/
def BinaryNumbersPuzzle.new (bits : Bits) (streak : Nat) (draws : List Nat)
    (shuffle : List Nat → List Nat) : BinaryNumbersPuzzle :=
  let scale := bits.scale_factor
  let gen := genLoop bits.suggestion_count bits.toNum draws []
  let current_number := gen.headD 0
  let raw_current_number :=
    if bits.is_twos_complement then current_number else current_number / scale
  let suggestions := shuffle gen
  let penalty : ℚ := (streak : ℚ) * (1 / 2)
  let time_total := max (bits.base_time - penalty) 5
  { bits := bits
    current_number := current_number
    raw_current_number := raw_current_number
    suggestions := suggestions
    selected_suggestion := some (suggestions.headD 0)
    time_total := time_total
    time_left := time_total
    guess_result := none
    last_points_awarded := 0
    skip_first_dt := true }

/-- `BinaryNumbersPuzzle::run`: the countdown step. -/
def BinaryNumbersPuzzle.run (p : BinaryNumbersPuzzle) (dt : ℚ) :
    BinaryNumbersPuzzle :=
  if p.guess_result.isSome then p
  else if p.skip_first_dt then { p with skip_first_dt := false }
  else
    let time_left := max (p.time_left - dt) 0
    if time_left ≤ 0 then
      { p with time_left := time_left, guess_result := some .Timeout }
    else
      { p with time_left := time_left }

/-- `BinaryNumbersPuzzle::is_correct_guess`. -/
def BinaryNumbersPuzzle.is_correct_guess (p : BinaryNumbersPuzzle)
    (guess : Nat) : Bool :=
  guess = p.current_number

/-- `enum GameState`. -/
inductive GameState
  | Active
  | Result
  | PendingGameOver
  | GameOver
  deriving DecidableEq, Repr

/-- Insert-or-replace on an association list: the effect of
`HashMap::insert` as observed through `get`. -/
def insertAssoc (k v : Nat) : List (Nat × Nat) → List (Nat × Nat)
  | [] => [(k, v)]
  | (k', v') :: rest =>
    if k' = k then (k, v) :: rest else (k', v') :: insertAssoc k v rest

/-- `struct HighScores`: the `HashMap<u32, u32>` is modelled as an
association list with insert-or-replace update. -/
structure HighScores where
  scores : List (Nat × Nat)
  deriving DecidableEq, Repr

/-- `HighScores::empty`. -/
def HighScores.empty : HighScores := ⟨[]⟩

/-- `HighScores::get`: lookup with default 0. -/
def HighScores.get (hs : HighScores) (bits : Nat) : Nat :=
  match hs.scores.lookup bits with
  | some v => v
  | none => 0

/-- `HighScores::update`. -/
def HighScores.update (hs : HighScores) (bits score : Nat) : HighScores :=
  ⟨insertAssoc bits score hs.scores⟩

/-- `struct BinaryNumbersGame`. -/
structure BinaryNumbersGame where
  puzzle : BinaryNumbersPuzzle
  bits : Bits
  exit_intended : Bool
  score : Nat
  streak : Nat
  rounds : Nat
  puzzle_resolved : Bool
  lives : Nat
  max_lives : Nat
  game_state : GameState
  max_streak : Nat
  high_scores : HighScores
  prev_high_score_for_display : Nat
  new_high_score_reached : Bool
  deriving DecidableEq, Repr

/-- `BinaryNumbersGame::finalize_round`, step 1: the per-outcome
score/streak/lives bookkeeping (the body of the `match result`). -/
def applyOutcome (g : BinaryNumbersGame) (result : GuessResult) :
    BinaryNumbersGame :=
  match result with
  | .Correct =>
    let streak := g.streak + 1
    let max_streak := if streak > g.max_streak then streak else g.max_streak
    let streak_bonus := (streak - 1) * 2
    let points := 10 + streak_bonus
    let lives :=
      if streak % 5 = 0 ∧ g.lives < g.max_lives then g.lives + 1 else g.lives
    { g with
      streak := streak
      max_streak := max_streak
      score := g.score + points
      lives := lives
      puzzle := { g.puzzle with last_points_awarded := points } }
  | .Incorrect | .Timeout =>
    { g with
      streak := 0
      puzzle := { g.puzzle with last_points_awarded := 0 }
      lives := if g.lives > 0 then g.lives - 1 else g.lives }

/-- `BinaryNumbersGame::finalize_round`, step 2: the high-score check. -/
def applyHighScore (g : BinaryNumbersGame) : BinaryNumbersGame :=
  let bits_key := g.bits.high_score_key
  let prev := g.high_scores.get bits_key
  if g.score > prev then
    { g with
      prev_high_score_for_display :=
        if ¬g.new_high_score_reached then prev
        else g.prev_high_score_for_display
      high_scores := g.high_scores.update bits_key g.score
      new_high_score_reached := true }
  else g

/-- `BinaryNumbersGame::finalize_round`. The `save()` call is I/O whose
result is discarded (`let _ = ...`); it does not affect the game state. -/
def BinaryNumbersGame.finalize_round (g : BinaryNumbersGame) :
    BinaryNumbersGame :=
  match g.puzzle.guess_result with
  | none => g
  | some result =>
    let g := { g with rounds := g.rounds + 1 }
    let g := applyOutcome g result
    let g := applyHighScore g
    let g :=
      if g.lives = 0 then { g with game_state := .PendingGameOver }
      else { g with game_state := .Result }
    { g with puzzle_resolved := true }

/-- `<BinaryNumbersGame as MainScreenWidget>::run` (the render-only
`refresh_stats_snapshot` calls are omitted). -/
def BinaryNumbersGame.run (g : BinaryNumbersGame) (dt : ℚ) :
    BinaryNumbersGame :=
  if g.game_state = .GameOver then g
  else
    let g := { g with puzzle := g.puzzle.run dt }
    if g.puzzle.guess_result.isSome ∧ ¬g.puzzle_resolved then
      g.finalize_round
    else g

/-- The pre-classified input intents reaching `handle_no_result_yet`
(the keybinding layer is an excluded collaborator per the spec). -/
inductive GameInput
  | Left
  | Right
  | Select
  | SkipKey
  | Other
  deriving DecidableEq, Repr

/-- `Iterator::position(|&x| x == sel)` on a list. -/
def position (sel : Nat) : List Nat → Option Nat
  | [] => none
  | y :: ys => if y = sel then some 0 else (position sel ys).map (· + 1)

/-- `BinaryNumbersGame::handle_no_result_yet`: candidate cycling via
Left/Right, Select checks the selection, `s`/`S` skips as a timeout.
List indexing `suggestions[i]` is modelled by `getD i 0`; the claims carry
the nonemptiness hypothesis under which the indices are in bounds. -/
def BinaryNumbersGame.handle_no_result_yet (g : BinaryNumbersGame)
    (input : GameInput) : BinaryNumbersGame :=
  match input with
  | .Right =>
    match g.puzzle.selected_suggestion with
    | some selected =>
      match position selected g.puzzle.suggestions with
      | some index =>
        let next_index := (index + 1) % g.puzzle.suggestions.length
        { g with puzzle := { g.puzzle with
            selected_suggestion := some (g.puzzle.suggestions.getD next_index 0) } }
      | none => g
    | none =>
      { g with puzzle := { g.puzzle with
          selected_suggestion := some (g.puzzle.suggestions.getD 0 0) } }
  | .Left =>
    match g.puzzle.selected_suggestion with
    | some selected =>
      match position selected g.puzzle.suggestions with
      | some index =>
        let prev_index :=
          if index = 0 then g.puzzle.suggestions.length - 1 else index - 1
        { g with puzzle := { g.puzzle with
            selected_suggestion := some (g.puzzle.suggestions.getD prev_index 0) } }
      | none => g
    | none => g
  | .Select =>
    match g.puzzle.selected_suggestion with
    | some selected =>
      let g := { g with puzzle := { g.puzzle with
          guess_result :=
            if g.puzzle.is_correct_guess selected then some .Correct
            else some .Incorrect } }
      g.finalize_round
    | none => g
  | .SkipKey =>
    let g := { g with puzzle := { g.puzzle with
        guess_result := some .Timeout } }
    g.finalize_round
  | .Other => g

/-! High-score persistence (`HighScores::save` / `HighScores::load`).
File contents are modelled as `List Char`. -/

/-- Little-endian decimal digits of `n` (`n % 10` first), the recursion
`u32` formatting performs. -/
def toDecRev (n : Nat) : List Nat :=
  if h : n < 10 then [n]
  else
    have : n / 10 < n := Nat.div_lt_self (by omega) (by omega)
    n % 10 :: toDecRev (n / 10)

/-- The decimal rendering of `n` produced by `format!("{n}")`. -/
def reprNat (n : Nat) : List Char :=
  (toDecRev n).reverse.map Nat.digitChar

/-- The value of a most-significant-first digit string, the accumulator of
integer parsing. -/
def digitsVal (l : List Char) : Nat :=
  l.foldl (fun acc c => acc * 10 + (c.toNat - '0'.toNat)) 0

/-- `str::parse::<u32>`: an optional leading `+`, then a nonempty run of
ASCII digits, rejecting values that overflow `u32`. (The code's
step-by-step checked accumulation overflows exactly when the final value
is `≥ 2^32`.) -/
def parseU32 (l : List Char) : Option Nat :=
  let l' := if l.head? = some '+' then l.tail else l
  if l' ≠ [] ∧ l'.all Char.isDigit then
    let v := digitsVal l'
    if v < 2 ^ 32 then some v else none
  else none

/-- `str::split_once(c)`. -/
def splitOnce (c : Char) : List Char → Option (List Char × List Char)
  | [] => none
  | x :: xs =>
    if x = c then some ([], xs)
    else (splitOnce c xs).map (fun p => (x :: p.1, p.2))

/-- `str::trim`. -/
def trimChars (l : List Char) : List Char :=
  ((l.dropWhile Char.isWhitespace).reverse.dropWhile Char.isWhitespace).reverse

/-- Accumulator recursion behind `str::lines`. -/
def linesAux (cur : List Char) : List Char → List (List Char)
  | [] => if cur.isEmpty then [] else [cur.reverse]
  | c :: cs =>
    if c = '\n' then cur.reverse :: linesAux [] cs else linesAux (c :: cur) cs

/-- `str::lines`: split on `'\n'`, a trailing newline terminating the last
line rather than opening an empty one. -/
def rustLines (s : List Char) : List (List Char) :=
  linesAux [] s

/-- The body of `HighScores::load`'s per-line `if let`: a line is kept
exactly when it splits on `=` and both trimmed sides parse as `u32`. -/
def parseLine (l : List Char) : Option (Nat × Nat) :=
  match splitOnce '=' l with
  | none => none
  | some (k, v) =>
    match parseU32 (trimChars k), parseU32 (trimChars v) with
    | some bits, some score => some (bits, score)
    | _, _ => none

/-- The fold of `HighScores::load` over the file's lines. -/
def loadLines (hs : HighScores) : List (List Char) → HighScores
  | [] => hs
  | l :: ls =>
    loadLines
      (match parseLine l with
       | some (k, v) => hs.update k v
       | none => hs) ls

/-- `HighScores::load` on successfully read file contents. -/
def loadContent (contents : List Char) : HighScores :=
  loadLines HighScores.empty (rustLines contents)

/-- `HighScores::load`: `none` models a file that could not be opened or
read, in which case the store stays at `empty`. -/
def HighScores.load : Option (List Char) → HighScores
  | none => HighScores.empty
  | some contents => loadContent contents

/-- The fixed key order written by `HighScores::save`. -/
def saveKeys : List Nat := [4, 42, 44, 48, 412, 8, 12, 16]

/-- The file contents built by `HighScores::save`
(`writeln!(data, "{key}={val}")` per fixed key). -/
def HighScores.saveContent (hs : HighScores) : List Char :=
  (saveKeys.map (fun k => reprNat k ++ '=' :: reprNat (hs.get k) ++ ['\n'])).flatten

/-! Procedural animation timer (`ProceduralAnimationWidget`,
`src/utils.rs`). Durations in milliseconds, as the code's `as_millis`
arithmetic; the `f32` progress quotient becomes `ℚ`. -/

/-- The timing-relevant state of `ProceduralAnimationWidget`. -/
structure AnimWidget where
  num_frames : Nat
  frame_duration : Nat
  pause_at_end : Nat
  paused : Bool
  paused_progress : ℚ
  paused_cycle : Nat
  deriving DecidableEq, Repr

/-- `ProceduralAnimationWidget::get_animation_progress_and_cycle`, with the
elapsed wall-clock time since `start_time` as an explicit parameter. -/
def AnimWidget.get_animation_progress_and_cycle (w : AnimWidget)
    (elapsed : Nat) : ℚ × Nat :=
  if w.paused then (w.paused_progress, w.paused_cycle)
  else
    let animation_duration := w.frame_duration * w.num_frames
    let total_cycle_duration := animation_duration + w.pause_at_end
    let cycle := elapsed / total_cycle_duration
    let cycle_time := elapsed % total_cycle_duration
    if animation_duration ≤ cycle_time then (1, cycle)
    else ((cycle_time : ℚ) / (animation_duration : ℚ), cycle)

/-- `BinaryNumbersGame::new_with_max_lives`, with the loaded high scores and
the puzzle RNG inputs explicit (the Rust constructor loads the store from
disk and draws from the global RNG). -/
def BinaryNumbersGame.new_with_max_lives (bits : Bits) (max_lives : Nat)
    (hs : HighScores) (draws : List Nat) (shuffle : List Nat → List Nat) :
    BinaryNumbersGame :=
  { bits := bits
    puzzle := BinaryNumbersPuzzle.new bits 0 draws shuffle
    exit_intended := false
    score := 0
    streak := 0
    rounds := 0
    puzzle_resolved := false
    lives := min max_lives 3
    max_lives := max_lives
    game_state := GameState.Active
    max_streak := 0
    high_scores := hs
    prev_high_score_for_display := hs.get bits.high_score_key
    new_high_score_reached := false }

/-! Concrete fixtures used by the witness theorems. -/

/-- The spec's worked example: 4-bit unsigned mode, streak 4, lives 2 of 3,
about to resolve a Correct guess. -/
def exampleCorrectGame : BinaryNumbersGame :=
  { BinaryNumbersGame.new_with_max_lives Bits.Four 3 HighScores.empty
      [0, 1, 2] id with
    streak := 4
    lives := 2
    puzzle := { BinaryNumbersPuzzle.new Bits.Four 0 [0, 1, 2] id with
                  guess_result := some GuessResult.Correct } }

/-- A game one miss away from game over. -/
def exampleMissGame : BinaryNumbersGame :=
  { BinaryNumbersGame.new_with_max_lives Bits.Four 3 HighScores.empty
      [0, 1, 2] id with
    lives := 1
    puzzle := { BinaryNumbersPuzzle.new Bits.Four 0 [0, 1, 2] id with
                  guess_result := some GuessResult.Incorrect } }

/-- The miss game after its round was already resolved once. -/
def exampleResolvedGame : BinaryNumbersGame :=
  { exampleMissGame with puzzle_resolved := true }

/-- A fresh game used to exercise the input handlers. -/
def exampleActiveGame : BinaryNumbersGame :=
  BinaryNumbersGame.new_with_max_lives Bits.Four 3 HighScores.empty
    [0, 1, 2] id

/-- The value of a most-significant-first digit list (proof-side companion
of `digitsVal`). -/
def decVal (l : List Nat) : Nat :=
  l.foldl (fun a d => a * 10 + d) 0

/-! Helper lemmas. -/

theorem headD_mem {l : List Nat} (h : l ≠ []) (d : Nat) : l.headD d ∈ l := by
  cases l with
  | nil => exact absurd rfl h
  | cons a as => simp [List.headD]

theorem getD_mem_of_lt :
    ∀ {l : List Nat} {i : Nat}, i < l.length → ∀ d, l.getD i d ∈ l := by
  intro l
  induction l with
  | nil => intro i h d; simp at h
  | cons a as ih =>
    intro i h d
    cases i with
    | zero => simp
    | succ j =>
      have : j < as.length := by simpa using h
      simpa using Or.inr (ih this d)

theorem genLoop_subset {count : Nat} {f : Nat → Nat} :
    ∀ (draws acc : List Nat) (x : Nat), x ∈ genLoop count f draws acc →
      x ∈ acc ∨ ∃ d, d ∈ draws ∧ x = f d := by
  intro draws
  induction draws with
  | nil =>
    intro acc x hx
    simp only [genLoop] at hx
    exact Or.inl hx
  | cons d ds ih =>
    intro acc x hx
    simp only [genLoop] at hx
    split at hx
    · exact Or.inl hx
    · rcases ih _ _ hx with h | ⟨d', hd', hx'⟩
      · split at h
        · exact Or.inl h
        · rcases List.mem_append.mp h with h | h
          · exact Or.inl h
          · simp only [List.mem_singleton] at h
            exact Or.inr ⟨d, by simp, h⟩
      · exact Or.inr ⟨d', by simp [hd'], hx'⟩

theorem genLoop_nodup {count : Nat} {f : Nat → Nat} :
    ∀ (draws acc : List Nat), acc.Nodup → (genLoop count f draws acc).Nodup := by
  intro draws
  induction draws with
  | nil =>
    intro acc h
    simpa only [genLoop] using h
  | cons d ds ih =>
    intro acc h
    simp only [genLoop]
    split
    · exact h
    · apply ih
      split
      · exact h
      · next hmem =>
        rw [List.nodup_append]
        exact ⟨h, List.nodup_singleton _, by simpa using hmem⟩

theorem Bits.scale_factor_pos (b : Bits) : 0 < b.scale_factor := by
  cases b <;> decide

theorem Bits.suggestion_count_pos (b : Bits) : 0 < b.suggestion_count := by
  cases b <;> decide

theorem genLoop_scaled {b : Bits} (hb : b.is_twos_complement = false)
    {draws : List Nat} {x : Nat}
    (hx : x ∈ genLoop b.suggestion_count b.toNum draws []) :
    b.scale_factor ∣ x := by
  rcases genLoop_subset draws [] x hx with h | ⟨d, _, rfl⟩
  · simp at h
  · simp only [Bits.toNum, hb, Bool.false_eq_true, if_false]
    exact Dvd.intro_left d rfl

theorem position_of_mem {x : Nat} :
    ∀ {l : List Nat}, x ∈ l → ∃ i, position x l = some i ∧ i < l.length := by
  intro l
  induction l with
  | nil => simp
  | cons y ys ih =>
    intro hx
    by_cases h : y = x
    · exact ⟨0, by simp [position, h], by simp⟩
    · have hmem : x ∈ ys := by
        rcases List.mem_cons.mp hx with h' | h'
        · exact absurd h'.symm h
        · exact h'
      rcases ih hmem with ⟨i, hi, hlt⟩
      refine ⟨i + 1, by simp [position, h, hi], ?_⟩
      simp only [List.length_cons]
      omega

theorem run_of_result {p : BinaryNumbersPuzzle} {dt : ℚ}
    (h : p.guess_result.isSome = true) : p.run dt = p := by
  simp [BinaryNumbersPuzzle.run, h]

theorem run_skip {p : BinaryNumbersPuzzle} {dt : ℚ}
    (h1 : p.guess_result = none) (h2 : p.skip_first_dt = true) :
    p.run dt = { p with skip_first_dt := false } := by
  simp [BinaryNumbersPuzzle.run, h1, h2]

theorem run_tick {p : BinaryNumbersPuzzle} {dt : ℚ}
    (h1 : p.guess_result = none) (h2 : p.skip_first_dt = false) :
    p.run dt =
      if max (p.time_left - dt) 0 ≤ 0 then
        { p with time_left := max (p.time_left - dt) 0,
                 guess_result := some GuessResult.Timeout }
      else { p with time_left := max (p.time_left - dt) 0 } := by
  simp [BinaryNumbersPuzzle.run, h1, h2]

theorem max_sub_le_zero_iff {a dt : ℚ} : max (a - dt) 0 ≤ 0 ↔ a - dt ≤ 0 := by
  simp [max_le_iff]

theorem applyHighScore_fields (g : BinaryNumbersGame) :
    (applyHighScore g).score = g.score ∧
    (applyHighScore g).streak = g.streak ∧
    (applyHighScore g).lives = g.lives ∧
    (applyHighScore g).rounds = g.rounds ∧
    (applyHighScore g).max_streak = g.max_streak ∧
    (applyHighScore g).puzzle = g.puzzle ∧
    (applyHighScore g).game_state = g.game_state ∧
    (applyHighScore g).puzzle_resolved = g.puzzle_resolved ∧
    (applyHighScore g).max_lives = g.max_lives := by
  simp only [applyHighScore]
  split <;> exact ⟨rfl, rfl, rfl, rfl, rfl, rfl, rfl, rfl, rfl⟩

/-- Unfolding `applyOutcome` on a `Correct` result. -/
theorem applyOutcome_correct (g : BinaryNumbersGame) :
    applyOutcome g GuessResult.Correct =
      { g with
        streak := g.streak + 1
        max_streak :=
          if g.streak + 1 > g.max_streak then g.streak + 1 else g.max_streak
        score := g.score + (10 + (g.streak + 1 - 1) * 2)
        lives :=
          if (g.streak + 1) % 5 = 0 ∧ g.lives < g.max_lives then g.lives + 1
          else g.lives
        puzzle :=
          { g.puzzle with last_points_awarded := 10 + (g.streak + 1 - 1) * 2 } } :=
  rfl

/-- Unfolding `applyOutcome` on a miss. -/
theorem applyOutcome_miss (g : BinaryNumbersGame) (r : GuessResult)
    (hr : r = GuessResult.Incorrect ∨ r = GuessResult.Timeout) :
    applyOutcome g r =
      { g with
        streak := 0
        puzzle := { g.puzzle with last_points_awarded := 0 }
        lives := if g.lives > 0 then g.lives - 1 else g.lives } := by
  rcases hr with rfl | rfl <;> rfl

/-- Unfolding `finalize_round` when an outcome is present. -/
theorem finalize_round_eq {g : BinaryNumbersGame} {r : GuessResult}
    (h : g.puzzle.guess_result = some r) :
    g.finalize_round =
      { (if (applyHighScore (applyOutcome { g with rounds := g.rounds + 1 } r)).lives = 0
         then { applyHighScore (applyOutcome { g with rounds := g.rounds + 1 } r) with
                  game_state := GameState.PendingGameOver }
         else { applyHighScore (applyOutcome { g with rounds := g.rounds + 1 } r) with
                  game_state := GameState.Result }) with
        puzzle_resolved := true } := by
  simp only [BinaryNumbersGame.finalize_round, h]

theorem Bits.scale_factor_of_tc {b : Bits} (h : b.is_twos_complement = true) :
    b.scale_factor = 1 := by
  cases b <;> simp_all [Bits.is_twos_complement, Bits.scale_factor]

/-- C1: for every `Bits` mode and starting streak, `Puzzle::new` yields
`suggestion_count` pairwise-distinct candidates; in unsigned modes every
candidate is divisible by `scale_factor`; the target value is present in the
candidate list; and `targetRaw * scaleFactor == targetValue`. The hypotheses
say the RNG supplied enough draws to fill the list and that `shuffle`
permutes its input. -/
theorem C1_puzzle_new_candidates (bits : Bits) (streak : Nat)
    (draws : List Nat) (shuffle : List Nat → List Nat)
    (hlen : (genLoop bits.suggestion_count bits.toNum draws []).length
      = bits.suggestion_count)
    (hshuffle : ∀ l, List.Perm (shuffle l) l) :
    (BinaryNumbersPuzzle.new bits streak draws shuffle).suggestions.length
        = bits.suggestion_count ∧
    (BinaryNumbersPuzzle.new bits streak draws shuffle).suggestions.Nodup ∧
    (bits.is_twos_complement = false →
      ∀ c ∈ (BinaryNumbersPuzzle.new bits streak draws shuffle).suggestions,
        bits.scale_factor ∣ c) ∧
    (BinaryNumbersPuzzle.new bits streak draws shuffle).current_number
        ∈ (BinaryNumbersPuzzle.new bits streak draws shuffle).suggestions ∧
    (BinaryNumbersPuzzle.new bits streak draws shuffle).raw_current_number
        * bits.scale_factor
      = (BinaryNumbersPuzzle.new bits streak draws shuffle).current_number := by
  have hgen_ne : genLoop bits.suggestion_count bits.toNum draws [] ≠ [] := by
    intro hnil
    have hpos := bits.suggestion_count_pos
    rw [hnil] at hlen
    simp only [List.length_nil] at hlen
    omega
  have hperm : List.Perm
      (shuffle (genLoop bits.suggestion_count bits.toNum draws []))
      (genLoop bits.suggestion_count bits.toNum draws []) :=
    hshuffle _
  have hnodup : (genLoop bits.suggestion_count bits.toNum draws []).Nodup :=
    genLoop_nodup draws [] List.nodup_nil
  have hhead : (genLoop bits.suggestion_count bits.toNum draws []).headD 0
      ∈ genLoop bits.suggestion_count bits.toNum draws [] :=
    headD_mem hgen_ne 0
  refine ⟨?_, ?_, ?_, ?_, ?_⟩
  · rw [show (BinaryNumbersPuzzle.new bits streak draws shuffle).suggestions
        = shuffle (genLoop bits.suggestion_count bits.toNum draws []) from rfl,
      hperm.length_eq, hlen]
  · exact hperm.nodup_iff.mpr hnodup
  · intro htc c hc
    have hc' : c ∈ genLoop bits.suggestion_count bits.toNum draws [] :=
      hperm.mem_iff.mp hc
    exact genLoop_scaled htc hc'
  · exact hperm.mem_iff.mpr hhead
  · show (if bits.is_twos_complement
        then (genLoop bits.suggestion_count bits.toNum draws []).headD 0
        else (genLoop bits.suggestion_count bits.toNum draws []).headD 0
          / bits.scale_factor) * bits.scale_factor
      = (genLoop bits.suggestion_count bits.toNum draws []).headD 0
    by_cases htc : bits.is_twos_complement
    · rw [if_pos htc, Bits.scale_factor_of_tc htc, Nat.mul_one]
    · rw [if_neg htc]
      exact Nat.div_mul_cancel
        (genLoop_scaled (Bool.not_eq_true _ ▸ eq_false_of_ne_true htc) hhead)

/-- Concrete instantiation of `C1_puzzle_new_candidates`:
mode `Four`, streak 0, draws `[0, 1, 2]`, identity shuffle. -/
theorem C1_witness :
    (BinaryNumbersPuzzle.new Bits.Four 0 [0, 1, 2] id).suggestions.length
        = Bits.Four.suggestion_count ∧
    (BinaryNumbersPuzzle.new Bits.Four 0 [0, 1, 2] id).suggestions.Nodup ∧
    (Bits.Four.is_twos_complement = false →
      ∀ c ∈ (BinaryNumbersPuzzle.new Bits.Four 0 [0, 1, 2] id).suggestions,
        Bits.Four.scale_factor ∣ c) ∧
    (BinaryNumbersPuzzle.new Bits.Four 0 [0, 1, 2] id).current_number
        ∈ (BinaryNumbersPuzzle.new Bits.Four 0 [0, 1, 2] id).suggestions ∧
    (BinaryNumbersPuzzle.new Bits.Four 0 [0, 1, 2] id).raw_current_number
        * Bits.Four.scale_factor
      = (BinaryNumbersPuzzle.new Bits.Four 0 [0, 1, 2] id).current_number :=
  C1_puzzle_new_candidates Bits.Four 0 [0, 1, 2] id (by decide)
    (fun l => List.Perm.refl l)

/-- C8: for every mode and streak, the time budget is
`max(5, baseTime - 0.5 * streak)`, `time_left` starts at `time_total`, and
the base times are 8 s for 4-bit modes, 12 s for 8-bit, 16 s for 12-bit and
20 s for 16-bit. -/
theorem C8_time_budget (bits : Bits) (streak : Nat) (draws : List Nat)
    (shuffle : List Nat → List Nat) :
    (BinaryNumbersPuzzle.new bits streak draws shuffle).time_total
        = max 5 (bits.base_time - (1 / 2 : ℚ) * (streak : ℚ)) ∧
    (BinaryNumbersPuzzle.new bits streak draws shuffle).time_left
        = (BinaryNumbersPuzzle.new bits streak draws shuffle).time_total ∧
    (bits.to_int = 4 → bits.base_time = 8) ∧
    (bits.to_int = 8 → bits.base_time = 12) ∧
    (bits.to_int = 12 → bits.base_time = 16) ∧
    (bits.to_int = 16 → bits.base_time = 20) := by
  refine ⟨?_, rfl, ?_, ?_, ?_, ?_⟩
  · show max (bits.base_time - (streak : ℚ) * (1 / 2)) 5 = _
    rw [max_comm, mul_comm]
  all_goals cases bits <;> decide

/-- Concrete instantiation of `C8_time_budget`: mode `Twelve`, streak 3. -/
theorem C8_witness :
    (BinaryNumbersPuzzle.new Bits.Twelve 3 [] id).time_total
        = max 5 (Bits.Twelve.base_time - (1 / 2 : ℚ) * (3 : ℚ)) ∧
    (BinaryNumbersPuzzle.new Bits.Twelve 3 [] id).time_left
        = (BinaryNumbersPuzzle.new Bits.Twelve 3 [] id).time_total ∧
    (Bits.Twelve.to_int = 4 → Bits.Twelve.base_time = 8) ∧
    (Bits.Twelve.to_int = 8 → Bits.Twelve.base_time = 12) ∧
    (Bits.Twelve.to_int = 12 → Bits.Twelve.base_time = 16) ∧
    (Bits.Twelve.to_int = 16 → Bits.Twelve.base_time = 20) :=
  C8_time_budget Bits.Twelve 3 [] id

/-- C2: `run` is a no-op once an outcome is set; exactly one call (the
first) is skipped without consuming its delta; later calls clamp
`time_left` to `max 0 (time_left - dt)` and set `Timeout` exactly when the
countdown reaches 0; immediately after construction the first call changes
neither `time_left` nor the outcome, and a second call with
`dt₂ ≥ time_total` sets `Timeout`. -/
theorem C2_advance_semantics (p : BinaryNumbersPuzzle) (dt : ℚ) (bits : Bits)
    (streak : Nat) (draws : List Nat) (shuffle : List Nat → List Nat)
    (dt₁ dt₂ : ℚ) :
    (p.guess_result.isSome = true → p.run dt = p) ∧
    (p.guess_result = none → p.skip_first_dt = true →
      ((p.run dt).time_left = p.time_left ∧
       (p.run dt).guess_result = none ∧
       (p.run dt).skip_first_dt = false)) ∧
    (p.guess_result = none → p.skip_first_dt = false →
      ((p.run dt).time_left = max 0 (p.time_left - dt) ∧
       ((p.run dt).guess_result = some GuessResult.Timeout ↔
         p.time_left - dt ≤ 0))) ∧
    ((BinaryNumbersPuzzle.new bits streak draws shuffle).run dt₁).time_left
        = (BinaryNumbersPuzzle.new bits streak draws shuffle).time_left ∧
    ((BinaryNumbersPuzzle.new bits streak draws shuffle).run dt₁).guess_result
        = none ∧
    ((BinaryNumbersPuzzle.new bits streak draws shuffle).time_total ≤ dt₂ →
      (((BinaryNumbersPuzzle.new bits streak draws shuffle).run dt₁).run
          dt₂).guess_result = some GuessResult.Timeout) := by
  refine ⟨fun h => run_of_result h, ?_, ?_, ?_, ?_, ?_⟩
  · intro h1 h2
    rw [run_skip h1 h2]
    exact ⟨rfl, h1, rfl⟩
  · intro h1 h2
    rw [run_tick h1 h2]
    by_cases hle : p.time_left - dt ≤ 0
    · rw [if_pos (max_sub_le_zero_iff.mpr hle)]
      exact ⟨max_comm _ _, by simp [hle]⟩
    · rw [if_neg (fun hcon => hle (max_sub_le_zero_iff.mp hcon))]
      exact ⟨max_comm _ _, by simp [h1, hle]⟩
  · rw [run_skip rfl rfl]
  · rw [run_skip rfl rfl]
    rfl
  · intro hge
    have hge' : (BinaryNumbersPuzzle.new bits streak draws shuffle).time_left
        ≤ dt₂ := hge
    rw [@run_skip (BinaryNumbersPuzzle.new bits streak draws shuffle) dt₁ rfl rfl,
      run_tick rfl rfl]
    dsimp only
    rw [if_pos (max_sub_le_zero_iff.mpr (sub_nonpos.mpr hge'))]

/-- Concrete instantiation of `C2_advance_semantics`: mode `Four`,
streak 7 (time budget floored at 5 s); the second call's delta 6 exceeds
the budget, so after a skipped first call it forces a timeout. -/
theorem C2_witness :
    (((BinaryNumbersPuzzle.new Bits.Four 7 [0, 1, 2] id).run 1).run
        6).guess_result = some GuessResult.Timeout :=
  (C2_advance_semantics (BinaryNumbersPuzzle.new Bits.Four 7 [0, 1, 2] id) 1
      Bits.Four 7 [0, 1, 2] id 1 6).2.2.2.2.2
    (by norm_num [BinaryNumbersPuzzle.new, Bits.base_time, max_le_iff])

/-- Field-level reading of `applyOutcome` on `Correct`. -/
theorem applyOutcome_correct_fields (g : BinaryNumbersGame) :
    (applyOutcome g GuessResult.Correct).streak = g.streak + 1 ∧
    (applyOutcome g GuessResult.Correct).max_streak
        = max g.max_streak (g.streak + 1) ∧
    (applyOutcome g GuessResult.Correct).score
        = g.score + (10 + g.streak * 2) ∧
    (applyOutcome g GuessResult.Correct).puzzle.last_points_awarded
        = 10 + g.streak * 2 ∧
    (applyOutcome g GuessResult.Correct).lives
        = (if (g.streak + 1) % 5 = 0 ∧ g.lives < g.max_lives then g.lives + 1
           else g.lives) ∧
    (applyOutcome g GuessResult.Correct).rounds = g.rounds := by
  refine ⟨rfl, ?_, ?_, ?_, rfl, rfl⟩
  · show (if g.streak + 1 > g.max_streak then g.streak + 1 else g.max_streak)
        = max g.max_streak (g.streak + 1)
    rw [Nat.max_def]
    split <;> split <;> omega
  · show g.score + (10 + (g.streak + 1 - 1) * 2) = g.score + (10 + g.streak * 2)
    omega
  · show 10 + (g.streak + 1 - 1) * 2 = 10 + g.streak * 2
    omega

/-- Field-level reading of `applyOutcome` on a miss. -/
theorem applyOutcome_miss_fields (g : BinaryNumbersGame) (r : GuessResult)
    (hr : r = GuessResult.Incorrect ∨ r = GuessResult.Timeout) :
    (applyOutcome g r).streak = 0 ∧
    (applyOutcome g r).puzzle.last_points_awarded = 0 ∧
    (applyOutcome g r).lives = g.lives - 1 ∧
    (applyOutcome g r).rounds = g.rounds := by
  rcases hr with rfl | rfl <;>
    refine ⟨rfl, rfl, ?_, rfl⟩ <;>
    · show (if g.lives > 0 then g.lives - 1 else g.lives) = g.lives - 1
      split <;> omega

/-- Field-level reading of `finalize_round` when an outcome is present. -/
theorem finalize_fields {g : BinaryNumbersGame} {r : GuessResult}
    (h : g.puzzle.guess_result = some r) :
    g.finalize_round.streak
        = (applyHighScore
            (applyOutcome { g with rounds := g.rounds + 1 } r)).streak ∧
    g.finalize_round.score
        = (applyHighScore
            (applyOutcome { g with rounds := g.rounds + 1 } r)).score ∧
    g.finalize_round.lives
        = (applyHighScore
            (applyOutcome { g with rounds := g.rounds + 1 } r)).lives ∧
    g.finalize_round.rounds
        = (applyHighScore
            (applyOutcome { g with rounds := g.rounds + 1 } r)).rounds ∧
    g.finalize_round.max_streak
        = (applyHighScore
            (applyOutcome { g with rounds := g.rounds + 1 } r)).max_streak ∧
    g.finalize_round.puzzle
        = (applyHighScore
            (applyOutcome { g with rounds := g.rounds + 1 } r)).puzzle ∧
    g.finalize_round.puzzle_resolved = true ∧
    g.finalize_round.game_state
        = (if (applyHighScore
                (applyOutcome { g with rounds := g.rounds + 1 } r)).lives = 0
           then GameState.PendingGameOver else GameState.Result) := by
  rw [finalize_round_eq h]
  split <;> exact ⟨rfl, rfl, rfl, rfl, rfl, rfl, rfl, rfl⟩

/-- C3: on a Correct outcome, finalization increments the streak, tracks the
maximum streak, awards `10 + (newStreak - 1) * 2 = 10 + oldStreak * 2`
points, and grants an extra life on every 5th consecutive correct answer
unless lives are already at the maximum. -/
theorem C3_finalize_correct (g : BinaryNumbersGame)
    (h : g.puzzle.guess_result = some GuessResult.Correct) :
    g.finalize_round.streak = g.streak + 1 ∧
    g.finalize_round.max_streak = max g.max_streak (g.streak + 1) ∧
    g.finalize_round.score = g.score + (10 + g.streak * 2) ∧
    g.finalize_round.puzzle.last_points_awarded = 10 + g.streak * 2 ∧
    g.finalize_round.lives
        = (if (g.streak + 1) % 5 = 0 ∧ g.lives < g.max_lives then g.lives + 1
           else g.lives) ∧
    g.finalize_round.rounds = g.rounds + 1 := by
  obtain ⟨f1, f2, f3, f4, f5, f6, f7, f8⟩ := finalize_fields h
  obtain ⟨a1, a2, a3, a4, a5, a6, a7, a8, a9⟩ :=
    applyHighScore_fields
      (applyOutcome { g with rounds := g.rounds + 1 } GuessResult.Correct)
  obtain ⟨o1, o2, o3, o4, o5, o6⟩ :=
    applyOutcome_correct_fields { g with rounds := g.rounds + 1 }
  refine ⟨?_, ?_, ?_, ?_, ?_, ?_⟩
  · rw [f1, a2, o1]
  · rw [f5, a5, o2]
  · rw [f2, a1, o3]
  · rw [f6, a6, o4]
  · rw [f3, a3, o5]
  · rw [f4, a4, o6]

/-- C4: on an Incorrect or Timeout outcome, finalization zeroes the streak,
awards 0 points, decrements lives (never below 0), and moves to
`PendingGameOver` exactly when lives reach 0 — never directly to
`GameOver` — and to `Result` otherwise. -/
theorem C4_finalize_miss (g : BinaryNumbersGame) (r : GuessResult)
    (h : g.puzzle.guess_result = some r)
    (hr : r = GuessResult.Incorrect ∨ r = GuessResult.Timeout) :
    g.finalize_round.streak = 0 ∧
    g.finalize_round.puzzle.last_points_awarded = 0 ∧
    g.finalize_round.lives = g.lives - 1 ∧
    (g.lives = 0 → g.finalize_round.lives = 0) ∧
    g.finalize_round.game_state
        = (if g.finalize_round.lives = 0 then GameState.PendingGameOver
           else GameState.Result) ∧
    g.finalize_round.game_state ≠ GameState.GameOver := by
  obtain ⟨f1, f2, f3, f4, f5, f6, f7, f8⟩ := finalize_fields h
  obtain ⟨a1, a2, a3, a4, a5, a6, a7, a8, a9⟩ :=
    applyHighScore_fields (applyOutcome { g with rounds := g.rounds + 1 } r)
  obtain ⟨o1, o2, o3, o4⟩ :=
    applyOutcome_miss_fields { g with rounds := g.rounds + 1 } r hr
  have hlives : g.finalize_round.lives = g.lives - 1 := by rw [f3, a3, o3]
  refine ⟨by rw [f1, a2, o1], by rw [f6, a6, o2], hlives,
    fun h0 => by rw [hlives, h0], ?_, ?_⟩
  · rw [f8, ← f3]
  · rw [f8]
    split <;> intro hcon <;> cases hcon

/-- C5: round finalization is guarded by the `puzzle_resolved` flag: the
frame step `run` never double-counts an already-resolved puzzle (score,
streak, lives and rounds are unchanged), `finalize_round` sets the flag
whenever an outcome is present, and no counter changes while the outcome
is still unset after the timer step. -/
theorem C5_resolution_idempotent (g : BinaryNumbersGame) (dt : ℚ) :
    (g.puzzle_resolved = true →
      ((g.run dt).score = g.score ∧ (g.run dt).streak = g.streak ∧
       (g.run dt).lives = g.lives ∧ (g.run dt).rounds = g.rounds ∧
       (g.run dt).puzzle_resolved = true)) ∧
    (g.puzzle.guess_result.isSome = true →
      g.finalize_round.puzzle_resolved = true) ∧
    ((g.puzzle.run dt).guess_result = none →
      ((g.run dt).score = g.score ∧ (g.run dt).streak = g.streak ∧
       (g.run dt).lives = g.lives ∧ (g.run dt).rounds = g.rounds)) := by
  refine ⟨?_, ?_, ?_⟩
  · intro hres
    simp only [BinaryNumbersGame.run]
    split
    · exact ⟨rfl, rfl, rfl, rfl, hres⟩
    · rw [if_neg (fun hc => by simp [hres] at hc)]
      exact ⟨rfl, rfl, rfl, rfl, hres⟩
  · intro hsome
    obtain ⟨r, hr⟩ := Option.isSome_iff_exists.mp hsome
    exact (finalize_fields hr).2.2.2.2.2.2.1
  · intro hnone
    simp only [BinaryNumbersGame.run]
    split
    · exact ⟨rfl, rfl, rfl, rfl⟩
    · rw [if_neg (fun hc => by simp [hnone] at hc)]
      exact ⟨rfl, rfl, rfl, rfl⟩

/-- Concrete instantiation of `C3_finalize_correct` at the spec's example:
streak 4 becomes 5, the score gains 18 points, and the 5th consecutive
correct answer grants the missing life. -/
theorem C3_witness :
    exampleCorrectGame.finalize_round.streak = 5 ∧
    exampleCorrectGame.finalize_round.score = 18 ∧
    exampleCorrectGame.finalize_round.lives = 3 := by
  obtain ⟨h1, -, h3, -, h5, -⟩ := C3_finalize_correct exampleCorrectGame rfl
  refine ⟨by rw [h1]; rfl, by rw [h3]; rfl, by rw [h5]; decide⟩

/-- Concrete instantiation of `C4_finalize_miss`: from 1 life, an incorrect
guess zeroes the streak, drops lives to 0, and moves to `PendingGameOver`,
not `GameOver`. -/
theorem C4_witness :
    exampleMissGame.finalize_round.streak = 0 ∧
    exampleMissGame.finalize_round.lives = 0 ∧
    exampleMissGame.finalize_round.game_state = GameState.PendingGameOver ∧
    exampleMissGame.finalize_round.game_state ≠ GameState.GameOver := by
  obtain ⟨h1, -, h3, -, h5, h6⟩ :=
    C4_finalize_miss exampleMissGame GuessResult.Incorrect rfl (Or.inl rfl)
  have h0 : exampleMissGame.finalize_round.lives = 0 := by rw [h3]; rfl
  exact ⟨h1, h0, by rw [h5, if_pos h0], h6⟩

/-- Concrete instantiation of `C5_resolution_idempotent`: stepping an
already-resolved game changes none of the counters. -/
theorem C5_witness :
    (exampleResolvedGame.run 1).score = exampleResolvedGame.score ∧
    (exampleResolvedGame.run 1).streak = exampleResolvedGame.streak ∧
    (exampleResolvedGame.run 1).lives = exampleResolvedGame.lives ∧
    (exampleResolvedGame.run 1).rounds = exampleResolvedGame.rounds ∧
    (exampleResolvedGame.run 1).puzzle_resolved = true :=
  (C5_resolution_idempotent exampleResolvedGame 1).1 rfl

/-- `finalize_round` never touches the candidate list or the selection, and
keeps the outcome set. -/
theorem finalize_puzzle_sel (g : BinaryNumbersGame) :
    g.finalize_round.puzzle.selected_suggestion
        = g.puzzle.selected_suggestion ∧
    g.finalize_round.puzzle.suggestions = g.puzzle.suggestions ∧
    (g.puzzle.guess_result.isSome = true →
      g.finalize_round.puzzle.guess_result.isSome = true) := by
  cases hg : g.puzzle.guess_result with
  | none => simp [BinaryNumbersGame.finalize_round, hg]
  | some r =>
    obtain ⟨-, -, -, -, -, f6, -, -⟩ := finalize_fields hg
    obtain ⟨-, -, -, -, -, a6, -, -, -⟩ :=
      applyHighScore_fields (applyOutcome { g with rounds := g.rounds + 1 } r)
    rw [f6, a6]
    cases r <;> exact ⟨rfl, rfl, fun _ => by simp [applyOutcome, hg]⟩

/-- C10: a fresh puzzle has a nonempty candidate list with the selection
set to the first displayed candidate (hence `Some` and among the
candidates), the Left/Right/Select handlers preserve that the selection
stays `Some` of a candidate, and whenever a selection exists the Select
handler actually records an outcome (the no-selection branch is dead). -/
theorem C10_selection_invariant (bits : Bits) (streak : Nat)
    (draws : List Nat) (shuffle : List Nat → List Nat)
    (hlen : (genLoop bits.suggestion_count bits.toNum draws []).length
      = bits.suggestion_count)
    (hshuffle : ∀ l, List.Perm (shuffle l) l)
    (g : BinaryNumbersGame) (input : GameInput) :
    ((BinaryNumbersPuzzle.new bits streak draws shuffle).suggestions ≠ [] ∧
     (∃ x, (BinaryNumbersPuzzle.new bits streak draws
          shuffle).selected_suggestion = some x ∧
        x ∈ (BinaryNumbersPuzzle.new bits streak draws shuffle).suggestions)) ∧
    ((input = GameInput.Left ∨ input = GameInput.Right ∨
        input = GameInput.Select) →
      g.puzzle.suggestions ≠ [] →
      (∃ x, g.puzzle.selected_suggestion = some x ∧
        x ∈ g.puzzle.suggestions) →
      ∃ y, (g.handle_no_result_yet input).puzzle.selected_suggestion
          = some y ∧
        y ∈ (g.handle_no_result_yet input).puzzle.suggestions) ∧
    ((∃ x, g.puzzle.selected_suggestion = some x) →
      ((g.handle_no_result_yet GameInput.Select).puzzle.guess_result).isSome
        = true) := by
  refine ⟨?_, ?_, ?_⟩
  · have hne : (BinaryNumbersPuzzle.new bits streak draws
        shuffle).suggestions ≠ [] := by
      intro hnil
      have hp := (hshuffle (genLoop bits.suggestion_count bits.toNum
        draws [])).length_eq
      rw [show (BinaryNumbersPuzzle.new bits streak draws shuffle).suggestions
          = shuffle (genLoop bits.suggestion_count bits.toNum draws [])
          from rfl] at hnil
      rw [hnil] at hp
      simp only [List.length_nil] at hp
      have := bits.suggestion_count_pos
      omega
    exact ⟨hne, (BinaryNumbersPuzzle.new bits streak draws
        shuffle).suggestions.headD 0, rfl, headD_mem hne 0⟩
  · rintro (rfl | rfl | rfl) hne ⟨x, hsel, hmem⟩
    · -- Left
      obtain ⟨i, hi, hilt⟩ := position_of_mem hmem
      have hlen0 : 0 < g.puzzle.suggestions.length := List.length_pos.mpr hne
      simp only [BinaryNumbersGame.handle_no_result_yet, hsel, hi]
      refine ⟨g.puzzle.suggestions.getD
          (if i = 0 then g.puzzle.suggestions.length - 1 else i - 1) 0,
        rfl, getD_mem_of_lt (by split <;> omega) 0⟩
    · -- Right
      obtain ⟨i, hi, hilt⟩ := position_of_mem hmem
      have hlen0 : 0 < g.puzzle.suggestions.length := List.length_pos.mpr hne
      simp only [BinaryNumbersGame.handle_no_result_yet, hsel, hi]
      exact ⟨g.puzzle.suggestions.getD
          ((i + 1) % g.puzzle.suggestions.length) 0,
        rfl, getD_mem_of_lt (Nat.mod_lt _ hlen0) 0⟩
    · -- Select
      have hstep : g.handle_no_result_yet GameInput.Select
          = BinaryNumbersGame.finalize_round
              { g with puzzle := { g.puzzle with
                  guess_result :=
                    if g.puzzle.is_correct_guess x then some GuessResult.Correct
                    else some GuessResult.Incorrect } } := by
        simp only [BinaryNumbersGame.handle_no_result_yet, hsel]
      rw [hstep]
      obtain ⟨s1, s2, -⟩ := finalize_puzzle_sel
        { g with puzzle := { g.puzzle with
            guess_result :=
              if g.puzzle.is_correct_guess x then some GuessResult.Correct
              else some GuessResult.Incorrect } }
      rw [s1, s2]
      exact ⟨x, hsel, hmem⟩
  · rintro ⟨x, hsel⟩
    have hstep : g.handle_no_result_yet GameInput.Select
        = BinaryNumbersGame.finalize_round
            { g with puzzle := { g.puzzle with
                guess_result :=
                  if g.puzzle.is_correct_guess x then some GuessResult.Correct
                  else some GuessResult.Incorrect } } := by
      simp only [BinaryNumbersGame.handle_no_result_yet, hsel]
    rw [hstep]
    obtain ⟨-, -, s3⟩ := finalize_puzzle_sel
      { g with puzzle := { g.puzzle with
          guess_result :=
            if g.puzzle.is_correct_guess x then some GuessResult.Correct
            else some GuessResult.Incorrect } }
    exact s3 (by split <;> rfl)

/-- Concrete instantiation of `C10_selection_invariant`: a fresh `Four`
puzzle with draws `[0, 1, 2]` has a selected candidate, a Right keypress
keeps the selection among the candidates, and Select records an outcome. -/
theorem C10_witness :
    ((BinaryNumbersPuzzle.new Bits.Four 0 [0, 1, 2] id).suggestions ≠ [] ∧
     (∃ x, (BinaryNumbersPuzzle.new Bits.Four 0 [0, 1, 2]
          id).selected_suggestion = some x ∧
        x ∈ (BinaryNumbersPuzzle.new Bits.Four 0 [0, 1, 2] id).suggestions)) ∧
    (∃ y, (exampleActiveGame.handle_no_result_yet
          GameInput.Right).puzzle.selected_suggestion = some y ∧
      y ∈ (exampleActiveGame.handle_no_result_yet
          GameInput.Right).puzzle.suggestions) ∧
    ((exampleActiveGame.handle_no_result_yet
        GameInput.Select).puzzle.guess_result).isSome = true := by
  obtain ⟨w1, w2, -⟩ := C10_selection_invariant Bits.Four 0 [0, 1, 2] id
    (by decide) (fun l => List.Perm.refl l) exampleActiveGame GameInput.Right
  obtain ⟨-, -, w3⟩ := C10_selection_invariant Bits.Four 0 [0, 1, 2] id
    (by decide) (fun l => List.Perm.refl l) exampleActiveGame GameInput.Select
  refine ⟨w1, w2 (Or.inr (Or.inl rfl)) (by decide) ⟨0, by decide, by decide⟩,
    w3 ⟨0, by decide⟩⟩

/-- C7: while unpaused (and with a nonzero animation duration, as the code
divides by it), the reported cycle index is the number of full
(animation + pause) periods elapsed, and the reported progress is the
elapsed fraction of the animation portion of the current cycle, always in
`[0, 1]` and equal to 1 throughout the trailing pause portion. -/
theorem C7_animation_progress (w : AnimWidget) (elapsed : Nat)
    (hp : w.paused = false)
    (ha : 0 < w.frame_duration * w.num_frames) :
    (w.get_animation_progress_and_cycle elapsed).2
        = elapsed / (w.frame_duration * w.num_frames + w.pause_at_end) ∧
    0 ≤ (w.get_animation_progress_and_cycle elapsed).1 ∧
    (w.get_animation_progress_and_cycle elapsed).1 ≤ 1 ∧
    (w.frame_duration * w.num_frames
        ≤ elapsed % (w.frame_duration * w.num_frames + w.pause_at_end) →
      (w.get_animation_progress_and_cycle elapsed).1 = 1) ∧
    (elapsed % (w.frame_duration * w.num_frames + w.pause_at_end)
        < w.frame_duration * w.num_frames →
      (w.get_animation_progress_and_cycle elapsed).1
        = ((elapsed % (w.frame_duration * w.num_frames + w.pause_at_end)
            : Nat) : ℚ)
          / ((w.frame_duration * w.num_frames : Nat) : ℚ)) := by
  simp only [AnimWidget.get_animation_progress_and_cycle, hp,
    Bool.false_eq_true, if_false]
  split
  · next hpause =>
    refine ⟨rfl, by norm_num, by norm_num, fun _ => rfl, fun hlt => ?_⟩
    omega
  · next hanim =>
    have hlt : elapsed % (w.frame_duration * w.num_frames + w.pause_at_end)
        < w.frame_duration * w.num_frames := by omega
    have hcast : (0 : ℚ) < ((w.frame_duration * w.num_frames : Nat) : ℚ) :=
      Nat.cast_pos.mpr ha
    refine ⟨rfl, ?_, ?_, fun hge => ?_, fun _ => rfl⟩
    · exact div_nonneg (Nat.cast_nonneg _) (le_of_lt hcast)
    · exact (div_le_one hcast).mpr (Nat.cast_le.mpr (le_of_lt hlt))
    · omega

/-- Concrete instantiation of `C7_animation_progress`: 4 frames of 100 ms
with a 200 ms trailing pause, at 1350 ms elapsed (cycle 2, 150 ms into the
400 ms animation window). -/
theorem C7_witness :
    ((⟨4, 100, 200, false, 0, 0⟩ :
        AnimWidget).get_animation_progress_and_cycle 1350).2
        = 1350 / (100 * 4 + 200) ∧
    0 ≤ ((⟨4, 100, 200, false, 0, 0⟩ :
        AnimWidget).get_animation_progress_and_cycle 1350).1 ∧
    ((⟨4, 100, 200, false, 0, 0⟩ :
        AnimWidget).get_animation_progress_and_cycle 1350).1 ≤ 1 ∧
    (100 * 4 ≤ 1350 % (100 * 4 + 200) →
      ((⟨4, 100, 200, false, 0, 0⟩ :
          AnimWidget).get_animation_progress_and_cycle 1350).1 = 1) ∧
    (1350 % (100 * 4 + 200) < 100 * 4 →
      ((⟨4, 100, 200, false, 0, 0⟩ :
          AnimWidget).get_animation_progress_and_cycle 1350).1
        = ((1350 % (100 * 4 + 200) : Nat) : ℚ)
          / ((100 * 4 : Nat) : ℚ)) := by
  have h := C7_animation_progress ⟨4, 100, 200, false, 0, 0⟩ 1350 rfl
    (by decide)
  simpa using h

/-! Lemmas about the persistence layer. -/

theorem toDecRev_lt_ten (n : Nat) : ∀ d ∈ toDecRev n, d < 10 := by
  induction n using Nat.strong_induction_on with
  | _ n ih =>
    rw [toDecRev]
    split
    · next h =>
      intro d hd
      simp only [List.mem_singleton] at hd
      omega
    · next h =>
      intro d hd
      rcases List.mem_cons.mp hd with rfl | hd'
      · omega
      · exact ih (n / 10) (Nat.div_lt_self (by omega) (by omega)) d hd'

theorem toDecRev_ne_nil (n : Nat) : toDecRev n ≠ [] := by
  rw [toDecRev]
  split <;> simp

theorem decVal_concat (l : List Nat) (d : Nat) :
    decVal (l ++ [d]) = decVal l * 10 + d := by
  simp [decVal, List.foldl_append]

theorem decVal_toDecRev (n : Nat) : decVal (toDecRev n).reverse = n := by
  induction n using Nat.strong_induction_on with
  | _ n ih =>
    rw [toDecRev]
    split
    · next h => simp [decVal]
    · next h =>
      rw [List.reverse_cons, decVal_concat,
        ih (n / 10) (Nat.div_lt_self (by omega) (by omega))]
      omega

theorem digitChar_facts {d : Nat} (h : d < 10) :
    (Nat.digitChar d).isDigit = true ∧
    (Nat.digitChar d).toNat - '0'.toNat = d ∧
    Nat.digitChar d ≠ '=' ∧
    Nat.digitChar d ≠ '\n' ∧
    Nat.digitChar d ≠ '+' ∧
    (Nat.digitChar d).isWhitespace = false := by
  interval_cases d <;> exact ⟨by decide, by decide, by decide, by decide,
    by decide, by decide⟩

theorem reprNat_ne_nil (n : Nat) : reprNat n ≠ [] := by
  have := toDecRev_ne_nil n
  simp only [reprNat, ne_eq, List.map_eq_nil_iff, List.reverse_eq_nil_iff]
  exact this

theorem mem_reprNat {c : Char} {n : Nat} (hc : c ∈ reprNat n) :
    ∃ d, d < 10 ∧ c = Nat.digitChar d := by
  simp only [reprNat, List.mem_map, List.mem_reverse] at hc
  obtain ⟨d, hd, rfl⟩ := hc
  exact ⟨d, toDecRev_lt_ten n d hd, rfl⟩

theorem reprNat_all_digits (n : Nat) :
    (reprNat n).all Char.isDigit = true := by
  rw [List.all_eq_true]
  intro c hc
  obtain ⟨d, hd, rfl⟩ := mem_reprNat hc
  exact (digitChar_facts hd).1

theorem reprNat_no_newline (n : Nat) : '\n' ∉ reprNat n := by
  intro hc
  obtain ⟨d, hd, heq⟩ := mem_reprNat hc
  exact (digitChar_facts hd).2.2.2.1 heq.symm

theorem reprNat_no_eq_sign (n : Nat) : '=' ∉ reprNat n := by
  intro hc
  obtain ⟨d, hd, heq⟩ := mem_reprNat hc
  exact (digitChar_facts hd).2.2.1 heq.symm

theorem reprNat_no_ws (n : Nat) :
    ∀ c ∈ reprNat n, c.isWhitespace = false := by
  intro c hc
  obtain ⟨d, hd, rfl⟩ := mem_reprNat hc
  exact (digitChar_facts hd).2.2.2.2.2

theorem digitsVal_map_digitChar :
    ∀ (l : List Nat) (a : Nat), (∀ d ∈ l, d < 10) →
      (l.map Nat.digitChar).foldl
          (fun acc c => acc * 10 + (c.toNat - '0'.toNat)) a
        = l.foldl (fun acc d => acc * 10 + d) a := by
  intro l
  induction l with
  | nil => intro a _; rfl
  | cons d ds ih =>
    intro a h
    simp only [List.map_cons, List.foldl_cons]
    rw [(digitChar_facts (h d (by simp))).2.1]
    exact ih _ (fun d' hd' => h d' (by simp [hd']))

theorem digitsVal_reprNat (n : Nat) : digitsVal (reprNat n) = n := by
  have hmap := digitsVal_map_digitChar (toDecRev n).reverse 0
    (fun d hd => toDecRev_lt_ten n d (List.mem_reverse.mp hd))
  rw [digitsVal, reprNat, hmap]
  exact decVal_toDecRev n

theorem reprNat_head_ne_plus (n : Nat) : (reprNat n).head? ≠ some '+' := by
  cases hr : reprNat n with
  | nil => simp
  | cons c cs =>
    have hc : c ∈ reprNat n := by rw [hr]; simp
    obtain ⟨d, hd, rfl⟩ := mem_reprNat hc
    simp only [List.head?_cons, ne_eq, Option.some.injEq]
    exact (digitChar_facts hd).2.2.2.2.1

theorem parseU32_reprNat {n : Nat} (h : n < 2 ^ 32) :
    parseU32 (reprNat n) = some n := by
  unfold parseU32
  rw [if_neg (reprNat_head_ne_plus n),
    if_pos ⟨reprNat_ne_nil n, reprNat_all_digits n⟩,
    digitsVal_reprNat, if_pos h]

theorem splitOnce_append {c : Char} :
    ∀ {l₁ : List Char}, c ∉ l₁ → ∀ l₂ : List Char,
      splitOnce c (l₁ ++ c :: l₂) = some (l₁, l₂) := by
  intro l₁
  induction l₁ with
  | nil => intro _ l₂; simp [splitOnce]
  | cons x xs ih =>
    intro hc l₂
    have hx : x ≠ c := fun h => hc (by simp [h])
    rw [List.cons_append]
    simp only [splitOnce, if_neg hx,
      ih (fun h => hc (List.mem_cons_of_mem x h)) l₂]
    rfl

theorem dropWhile_eq_self_of_not {p : Char → Bool} :
    ∀ {l : List Char}, (∀ c ∈ l, p c = false) → l.dropWhile p = l := by
  intro l h
  cases l with
  | nil => rfl
  | cons c cs => simp [List.dropWhile_cons, h c (by simp)]

theorem trimChars_eq_self {l : List Char}
    (h : ∀ c ∈ l, c.isWhitespace = false) : trimChars l = l := by
  unfold trimChars
  rw [dropWhile_eq_self_of_not h,
    dropWhile_eq_self_of_not (fun c hc => h c (List.mem_reverse.mp hc)),
    List.reverse_reverse]

theorem parseLine_good {k v : Nat} (hk : k < 2 ^ 32) (hv : v < 2 ^ 32) :
    parseLine (reprNat k ++ '=' :: reprNat v) = some (k, v) := by
  unfold parseLine
  rw [splitOnce_append (reprNat_no_eq_sign k)]
  dsimp only
  rw [trimChars_eq_self (reprNat_no_ws k),
    trimChars_eq_self (reprNat_no_ws v),
    parseU32_reprNat hk, parseU32_reprNat hv]

theorem linesAux_append {line : List Char} (hnl : '\n' ∉ line) :
    ∀ (cur rest : List Char),
      linesAux cur (line ++ '\n' :: rest)
        = (cur.reverse ++ line) :: linesAux [] rest := by
  induction line with
  | nil =>
    intro cur rest
    simp [linesAux]
  | cons c cs ih =>
    intro cur rest
    have hc : c ≠ '\n' := fun h => hnl (by simp [h])
    rw [List.cons_append]
    simp only [linesAux, if_neg hc]
    rw [ih (fun h => hnl (List.mem_cons_of_mem c h)) (c :: cur) rest]
    simp

theorem rustLines_flat :
    ∀ {ls : List (List Char)}, (∀ l ∈ ls, '\n' ∉ l) →
      rustLines ((ls.map (fun l => l ++ ['\n'])).flatten) = ls := by
  intro ls
  induction ls with
  | nil => intro _; rfl
  | cons l ls ih =>
    intro h
    have hassoc : ((l :: ls).map (fun l => l ++ ['\n'])).flatten
        = l ++ '\n' :: (ls.map (fun l => l ++ ['\n'])).flatten := by
      simp
    rw [hassoc]
    show linesAux [] (l ++ '\n' :: (ls.map (fun l => l ++ ['\n'])).flatten)
        = l :: ls
    rw [linesAux_append (h l (by simp)) [] _]
    rw [show linesAux [] ((ls.map (fun l => l ++ ['\n'])).flatten)
        = rustLines ((ls.map (fun l => l ++ ['\n'])).flatten) from rfl]
    rw [ih (fun l' hl' => h l' (List.mem_cons_of_mem l hl'))]
    simp

theorem lookup_insertAssoc_self (k v : Nat) :
    ∀ l : List (Nat × Nat), (insertAssoc k v l).lookup k = some v := by
  intro l
  induction l with
  | nil => simp [insertAssoc, List.lookup]
  | cons p ps ih =>
    obtain ⟨k', v'⟩ := p
    by_cases h : k' = k
    · subst h
      simp [insertAssoc, List.lookup]
    · simp only [insertAssoc, if_neg h, List.lookup]
      rw [show (k == k') = false from beq_eq_false_iff_ne.mpr
        (fun hx => h hx.symm)]
      exact ih

theorem lookup_insertAssoc_ne {k k' : Nat} (hne : k' ≠ k) (v : Nat) :
    ∀ l : List (Nat × Nat),
      (insertAssoc k v l).lookup k' = l.lookup k' := by
  intro l
  induction l with
  | nil =>
    simp only [insertAssoc, List.lookup, List.lookup_nil]
    rw [show (k' == k) = false from beq_eq_false_iff_ne.mpr hne]
  | cons p ps ih =>
    obtain ⟨k₀, v₀⟩ := p
    by_cases h : k₀ = k
    · subst h
      simp only [insertAssoc, if_pos rfl, List.lookup]
      rw [show (k' == k₀) = false from beq_eq_false_iff_ne.mpr hne]
    · simp only [insertAssoc, if_neg h, List.lookup]
      cases hbe : k' == k₀ with
      | true => rfl
      | false => exact ih

theorem get_update_self (hs : HighScores) (k v : Nat) :
    (hs.update k v).get k = v := by
  simp [HighScores.get, HighScores.update, lookup_insertAssoc_self]

theorem get_update_ne (hs : HighScores) {k k' : Nat} (hne : k' ≠ k)
    (v : Nat) : (hs.update k v).get k' = hs.get k' := by
  simp [HighScores.get, HighScores.update, lookup_insertAssoc_ne hne]

theorem loadLines_map_good (f : Nat → Nat) :
    ∀ (ks : List Nat) (hs : HighScores),
      (∀ k ∈ ks, k < 2 ^ 32 ∧ f k < 2 ^ 32) →
      loadLines hs (ks.map (fun k => reprNat k ++ '=' :: reprNat (f k)))
        = ks.foldl (fun h k => h.update k (f k)) hs := by
  intro ks
  induction ks with
  | nil => intro hs _; rfl
  | cons k ks ih =>
    intro hs h
    simp only [List.map_cons, List.foldl_cons, loadLines]
    rw [parseLine_good (h k (by simp)).1 (h k (by simp)).2]
    exact ih _ (fun k' hk' => h k' (List.mem_cons_of_mem k hk'))

theorem saveContent_lines (hs : HighScores) :
    rustLines hs.saveContent
      = saveKeys.map (fun k => reprNat k ++ '=' :: reprNat (hs.get k)) := by
  have hmapeq :
      saveKeys.map (fun k => reprNat k ++ '=' :: reprNat (hs.get k) ++ ['\n'])
        = (saveKeys.map (fun k => reprNat k ++ '=' :: reprNat (hs.get k))).map
            (fun l => l ++ ['\n']) := by
    rw [List.map_map]
    exact List.map_congr_left (fun k _ => by simp)
  show rustLines
      ((saveKeys.map
        (fun k => reprNat k ++ '=' :: reprNat (hs.get k) ++ ['\n'])).flatten)
    = _
  rw [hmapeq]
  apply rustLines_flat
  intro l hl
  simp only [List.mem_map] at hl
  obtain ⟨k, -, rfl⟩ := hl
  intro hmem
  rcases List.mem_append.mp hmem with hmem | hmem
  · exact reprNat_no_newline k hmem
  · rcases List.mem_cons.mp hmem with heq | hmem
    · exact absurd heq (by decide)
    · exact reprNat_no_newline (hs.get k) hmem

theorem save_load_get (hs : HighScores) (hval : ∀ k, hs.get k < 2 ^ 32) :
    ∀ k ∈ saveKeys, (loadContent hs.saveContent).get k = hs.get k := by
  intro k hk
  rw [show loadContent hs.saveContent
      = loadLines HighScores.empty (rustLines hs.saveContent) from rfl,
    saveContent_lines hs,
    loadLines_map_good (fun k => hs.get k) saveKeys HighScores.empty
      (fun k' hk' => ⟨by fin_cases hk' <;> decide, hval k'⟩)]
  fin_cases hk <;>
    simp [List.foldl_cons, List.foldl_nil, get_update_self, get_update_ne,
      saveKeys]

theorem mem_of_lookup_eq_some {k v : Nat} :
    ∀ {l : List (Nat × Nat)}, l.lookup k = some v → (k, v) ∈ l := by
  intro l
  induction l with
  | nil => intro h; simp [List.lookup] at h
  | cons p ps ih =>
    obtain ⟨k₀, v₀⟩ := p
    intro h
    simp only [List.lookup] at h
    cases hbe : (k == k₀) with
    | true =>
      rw [hbe] at h
      simp only [Option.some.injEq] at h
      have : k = k₀ := beq_iff_eq.mp hbe
      subst this
      subst h
      exact List.mem_cons_self _ _
    | false =>
      rw [hbe] at h
      exact List.mem_cons_of_mem _ (ih h)

/-- C6: for a store whose keys lie in the closed 8-key set (and whose
values fit in `u32`, as they do in the program), saving and then loading
restores the score of every key with a nonzero score. -/
theorem C6_roundtrip (hs : HighScores)
    (hvals : ∀ p ∈ hs.scores, p.2 < 2 ^ 32)
    (hkeys : ∀ p ∈ hs.scores, p.1 ∈ saveKeys) :
    ∀ k, hs.get k ≠ 0 → (loadContent hs.saveContent).get k = hs.get k := by
  have hval : ∀ k, hs.get k < 2 ^ 32 := by
    intro k
    unfold HighScores.get
    cases hl : hs.scores.lookup k with
    | none => decide
    | some v => exact hvals (k, v) (mem_of_lookup_eq_some hl)
  intro k hk
  apply save_load_get hs hval
  unfold HighScores.get at hk
  cases hl : hs.scores.lookup k with
  | none => rw [hl] at hk; exact absurd rfl hk
  | some v => exact hkeys (k, v) (mem_of_lookup_eq_some hl)

/-- Concrete instantiation of `C6_roundtrip`: a store holding 10 for key 4
and 99 for key 412 still reports 99 for key 412 after a save/load cycle. -/
theorem C6_witness :
    (loadContent (HighScores.saveContent ⟨[(4, 10), (412, 99)]⟩)).get 412
      = (⟨[(4, 10), (412, 99)]⟩ : HighScores).get 412 :=
  C6_roundtrip ⟨[(4, 10), (412, 99)]⟩ (by decide) (by decide) 412 (by decide)

theorem loadLines_get_absent {k : Nat} :
    ∀ (ls : List (List Char)) (hs : HighScores),
      (∀ l ∈ ls, (parseLine l).map Prod.fst ≠ some k) →
      (loadLines hs ls).get k = hs.get k := by
  intro ls
  induction ls with
  | nil => intro hs _; rfl
  | cons l ls ih =>
    intro hs h
    simp only [loadLines]
    cases hp : parseLine l with
    | none =>
      exact ih hs (fun l' hl' => h l' (List.mem_cons_of_mem l hl'))
    | some kv =>
      obtain ⟨k', v⟩ := kv
      have hk' : k ≠ k' := by
        intro heq
        subst heq
        exact h l (List.mem_cons_self _ _) (by rw [hp]; rfl)
      exact (ih (hs.update k' v)
          (fun l' hl' => h l' (List.mem_cons_of_mem l hl'))).trans
        (get_update_ne hs hk' v)

/-- C9: loading the high-score store is total: a read failure falls back to
the empty default, a missing key reads as 0, a malformed line is skipped
while a well-formed `key=value` line is kept, and a key no line provides
reads as 0 from the loaded store. -/
theorem C9_load_error_handling :
    HighScores.load none = HighScores.empty ∧
    (∀ k, HighScores.empty.get k = 0) ∧
    (∀ (hs : HighScores) (l : List Char) (ls : List (List Char)),
      parseLine l = none → loadLines hs (l :: ls) = loadLines hs ls) ∧
    (∀ (hs : HighScores) (l : List Char) (ls : List (List Char)) (k v : Nat),
      parseLine l = some (k, v) →
        loadLines hs (l :: ls) = loadLines (hs.update k v) ls) ∧
    (∀ (contents : List Char) (k : Nat),
      (∀ l ∈ rustLines contents, (parseLine l).map Prod.fst ≠ some k) →
      (loadContent contents).get k = 0) := by
  refine ⟨rfl, fun k => rfl, ?_, ?_, ?_⟩
  · intro hs l ls hp
    simp only [loadLines, hp]
  · intro hs l ls k v hp
    simp only [loadLines, hp]
  · intro contents k h
    exact (loadLines_get_absent (rustLines contents) HighScores.empty h).trans
      rfl

/-- Concrete instantiation of `C9_load_error_handling`: the failed-read
fallback, a default lookup, skipping the malformed line `bogus`, and a
load of `x=1\n4=7\nbogus\n` in which no line supplies key 9. -/
theorem C9_witness :
    HighScores.load none = HighScores.empty ∧
    HighScores.empty.get 4 = 0 ∧
    loadLines HighScores.empty (("bogus".data) :: [])
        = loadLines HighScores.empty [] ∧
    (loadContent ("x=1\n4=7\nbogus\n".data)).get 9 = 0 := by
  obtain ⟨h1, h2, h3, h4, h5⟩ := C9_load_error_handling
  exact ⟨h1, h2 4, h3 HighScores.empty ("bogus".data) [] (by decide),
    h5 ("x=1\n4=7\nbogus\n".data) 9 (by decide)⟩

end Binbreak
